import Mathlib

/-!
Verification of the log-file retention core of the `logging` crate
(`src/lib.rs`): the timestamp codec, the directory scanner
(`get_all_logs`), the stable descending sort (`sort_log_files`), the
retention enforcer (`rotate_logs`, `MAX_LOG_FILES = 5`) and the
validating builder (`LoggingBuilder::finish`).

Filesystem state is passed explicitly as a `World` value; fallible
operations return `Except`; the `unwrap` in `rotate_logs` is modelled by
an outer `Option` whose `none` value represents a panic.
-/

namespace Logging

/-- The empty string (`String::default()` / `""` in the source). -/
def emptyString : String := ""

/-- The fixed timestamp pattern of `src/lib.rs` (`CHRONO_FORMAT`). -/
def CHRONO_FORMAT : String := "%Y-%m-%d_%H-%M-%S"

/-- The retention limit constant of `src/lib.rs` (`MAX_LOG_FILES: u8 = 5`). -/
def MAX_LOG_FILES : Nat := 5

/-- A point-in-time value at second precision, the model of
`chrono::NaiveDateTime` as far as the fixed pattern can express it. -/
structure NaiveDateTime where
  year : Nat
  month : Nat
  day : Nat
  hour : Nat
  minute : Nat
  second : Nat
deriving DecidableEq, Repr

/-- Proleptic Gregorian leap-year rule. -/
def isLeapYear (y : Nat) : Bool :=
  (y % 4 == 0 && y % 100 != 0) || y % 400 == 0

/-- Number of days of month `m` of year `y`. -/
def daysInMonth (y m : Nat) : Nat :=
  if m == 2 then (if isLeapYear y then 29 else 28)
  else if m == 4 || m == 6 || m == 9 || m == 11 then 30
  else 31

/-- The instants representable by the fixed-width token
`YYYY-MM-DD_HH-MM-SS`: calendar-valid fields with a four-digit year. -/
def Valid (t : NaiveDateTime) : Prop :=
  t.year ≤ 9999 ∧ 1 ≤ t.month ∧ t.month ≤ 12 ∧ 1 ≤ t.day ∧
  t.day ≤ daysInMonth t.year t.month ∧ t.hour ≤ 23 ∧ t.minute ≤ 59 ∧ t.second ≤ 59

instance : DecidablePred Valid := fun t => by unfold Valid; infer_instance

/-- Mixed-radix chronological key: on calendar-valid instants, comparing
keys is exactly `chrono`'s chronological comparison (`Ord` on
`NaiveDateTime`, lexicographic on date then time of day). -/
def NaiveDateTime.key (t : NaiveDateTime) : Nat :=
  t.year * 10000000000 + t.month * 100000000 + t.day * 1000000 +
  t.hour * 10000 + t.minute * 100 + t.second

/-- The decimal digit character for `d` (meaningful for `d < 10`). -/
def digitChar (d : Nat) : Char := Char.ofNat (48 + d)

/-- Numeric value of a digit character. -/
def chVal (c : Char) : Nat := c.toNat - 48

/-- Whether `c` is one of `0`..`9`. -/
def isDigitCh (c : Char) : Bool := 48 ≤ c.toNat && c.toNat ≤ 57

/-- Two-digit zero-padded rendering (for `n < 100`). -/
def pad2 (n : Nat) : List Char := [digitChar (n / 10), digitChar (n % 10)]

/-- Four-digit zero-padded rendering (for `n < 10000`). -/
def pad4 (n : Nat) : List Char :=
  [digitChar (n / 1000), digitChar (n / 100 % 10), digitChar (n / 10 % 10), digitChar (n % 10)]

/-- Modelled from the spec: the encode half of the Timestamp Codec
(`time.format(CHRONO_FORMAT)` in `src/lib.rs`, rendered by the external
`chrono` crate, which is not part of this repository): the fixed-width
token `YYYY-MM-DD_HH-MM-SS`. -/
def encodeChars (t : NaiveDateTime) : List Char :=
  pad4 t.year ++ '-' :: pad2 t.month ++ '-' :: pad2 t.day ++ '_' ::
  pad2 t.hour ++ '-' :: pad2 t.minute ++ '-' :: pad2 t.second

/-- String form of `encodeChars`. -/
def encode (t : NaiveDateTime) : String := String.mk (encodeChars t)

/-- Read a two-digit decimal number. -/
def readNat2 (a b : Char) : Option Nat :=
  if isDigitCh a && isDigitCh b then some (chVal a * 10 + chVal b) else none

/-- Read a four-digit decimal number. -/
def readNat4 (a b c d : Char) : Option Nat :=
  if isDigitCh a && isDigitCh b && isDigitCh c && isDigitCh d then
    some (chVal a * 1000 + chVal b * 100 + chVal c * 10 + chVal d)
  else none

/-- Modelled from the spec: the decode half of the Timestamp Codec
(`NaiveDateTime::parse_from_str(file_name, CHRONO_FORMAT)` in
`src/lib.rs`, executed by the external `chrono` crate, which is not part
of this repository): strict match of the fixed pattern — exactly 19
characters, the five fixed separators, every other position a decimal
digit, and calendar-valid field ranges. -/
def decodeChars : List Char → Option NaiveDateTime
  | [y1, y2, y3, y4, a1, m1, m2, a2, d1, d2, a3, h1, h2, a4, n1, n2, a5, s1, s2] =>
    if a1 == '-' && a2 == '-' && a3 == '_' && a4 == '-' && a5 == '-' then
      match readNat4 y1 y2 y3 y4, readNat2 m1 m2, readNat2 d1 d2,
          readNat2 h1 h2, readNat2 n1 n2, readNat2 s1 s2 with
      | some y, some mo, some d, some h, some mi, some s =>
        if 1 ≤ mo ∧ mo ≤ 12 ∧ 1 ≤ d ∧ d ≤ daysInMonth y mo ∧ h ≤ 23 ∧ mi ≤ 59 ∧ s ≤ 59 then
          some ⟨y, mo, d, h, mi, s⟩
        else none
      | _, _, _, _, _, _ => none
    else none
  | _ => none

/-- String form of `decodeChars`. -/
def decode (s : String) : Option NaiveDateTime := decodeChars s.data

/-- One directory entry as the scan sees it: the full path rendered as a
string (`path.display().to_string()`), and its filename stem —
`none` when `path.file_stem()` is `None`, `some none` when the stem is
not valid UTF-8 (`to_str()` returns `None`), `some (some s)` otherwise. -/
structure DirEntry where
  path : String
  stem : Option (Option String)
deriving DecidableEq, Repr

/-- The `(file_path, time)` pair the scan records for an entry, when
any: `none` when the entry has no stem (it is skipped) or its stem fails
to decode (it is deleted). -/
def entryRecord (e : DirEntry) : Option (String × NaiveDateTime) :=
  match e.stem with
  | none => none
  | some so => (decode (so.getD emptyString)).map (fun t => (e.path, t))

/-- `true` when the entry has a stem that fails to decode: the scan
deletes such entries (`std::fs::remove_file(path)?`). -/
def isBadEntry (e : DirEntry) : Bool := e.stem.isSome && (entryRecord e).isNone

/-- `true` when the scan leaves the entry in the directory: no stem
(silently skipped) or a decodable stem (recorded). -/
def keepEntry (e : DirEntry) : Bool := e.stem.isNone || (entryRecord e).isSome

/-- The entry loop of `get_all_logs`: walks the enumeration in order,
threading the directory state. Returns the directory after the loop's
deletions together with either the accumulated `(file_path, time)` list
or the error of a failed `remove_file` (which aborts the loop, leaving
the remaining entries untouched). `delFail p` models `remove_file(p)`
failing. -/
def processEntries (delFail : String → Bool) :
    List DirEntry → List DirEntry × Except Unit (List (String × NaiveDateTime))
  | [] => ([], Except.ok [])
  | e :: rest =>
    match e.stem with
    | none =>
      let r := processEntries delFail rest
      (e :: r.1, r.2)
    | some so =>
      match decode (so.getD emptyString) with
      | some t =>
        let r := processEntries delFail rest
        (e :: r.1, r.2.map (fun logs => (e.path, t) :: logs))
      | none =>
        if delFail e.path then (e :: rest, Except.error ())
        else processEntries delFail rest

/-- Insertion into a descending-sorted list: the inserted element goes
after every element that is not strictly older, so an earlier element
stays before later elements with the same timestamp. -/
def insertLog (x : String × NaiveDateTime) :
    List (String × NaiveDateTime) → List (String × NaiveDateTime)
  | [] => [x]
  | y :: ys => if y.2.key ≤ x.2.key then x :: y :: ys else y :: insertLog x ys

/-- `sort_log_files` of `src/lib.rs`:
`logs.sort_by(|(_, a), (_, b)| b.cmp(a))`. `Vec::sort_by` is a stable
sort and a stable sort is determined extensionally by its comparator; it
is modelled as a stable insertion sort on the same comparator
(newest first, ties in enumeration order). -/
def sort_log_files (logs : List (String × NaiveDateTime)) :
    List (String × NaiveDateTime) :=
  logs.foldr insertLog []

/-- The filesystem and environment state threaded through one
initialization pass: whether the log directory exists, its entries in
enumeration order, failure switches for each fallible external call,
and the current instant (`Local::now()`). -/
structure World where
  dirExists : Bool
  entries : List DirEntry
  createFail : Bool
  readFail : Bool
  delFail : String → Bool
  projectDirsOk : Bool
  openFail : Bool
  applyFail : Bool
  now : NaiveDateTime

/-- `get_all_logs` of `src/lib.rs`: ensure the directory exists
(`create_dir_all` when absent — a freshly created directory is empty),
read it (`read_dir`), run the entry loop, sort the records, and return
their paths only. -/
def get_all_logs (w : World) : World × Except Unit (List String) :=
  if !w.dirExists && w.createFail then (w, Except.error ())
  else
    let w1 := if w.dirExists then w else { w with dirExists := true, entries := [] }
    if w1.readFail then (w1, Except.error ())
    else
      let r := processEntries w1.delFail w1.entries
      ({ w1 with entries := r.1 },
        r.2.map (fun logs => (sort_log_files logs).map Prod.fst))

/-- The eviction loop of `rotate_logs`:
`while logs.len() >= MAX_LOG_FILES { let path = logs.pop().unwrap(); remove_file(path)?; }`.
`pop` takes the last (oldest) path. The outer `Option` is `none`
exactly when `pop().unwrap()` would panic. -/
def rotateLoop (delFail : String → Bool) (dir : List DirEntry) (logs : List String) :
    Option (List DirEntry × Except Unit Unit) :=
  if _hlen : MAX_LOG_FILES ≤ logs.length then
    match logs.getLast? with
    | none => none
    | some path =>
      if delFail path then some (dir, Except.error ())
      else rotateLoop delFail (dir.filter (fun e => e.path != path)) logs.dropLast
  else some (dir, Except.ok ())
termination_by logs.length
decreasing_by simp only [List.length_dropLast]; unfold MAX_LOG_FILES at _hlen; omega

/-- `rotate_logs` of `src/lib.rs`: scan (propagating its error), then
evict the oldest files while at least `MAX_LOG_FILES` remain. -/
def rotate_logs (w : World) : Option (World × Except Unit Unit) :=
  match get_all_logs w with
  | (w1, Except.error _) => some (w1, Except.error ())
  | (w1, Except.ok logs) =>
    match rotateLoop w1.delFail w1.entries logs with
    | none => none
    | some (d, r) => some ({ w1 with entries := d }, r)

/-- Verbosity levels of the `log` crate (`log::LevelFilter`). -/
inductive LevelFilter where
  | off
  | error
  | warn
  | info
  | debug
  | trace
deriving DecidableEq, Repr

/-- The fluent configuration object of `src/lib.rs`. -/
structure LoggingBuilder where
  app_name : String
  global_level : LevelFilter
  qualifier : String
  organization : String
  level_for : List (String × LevelFilter)
deriving Repr

/-- `LoggingBuilder::new()`. -/
def LoggingBuilder.new : LoggingBuilder :=
  { app_name := emptyString, global_level := LevelFilter.debug,
    qualifier := emptyString, organization := emptyString, level_for := [] }

/-- `LoggingBuilder::finish` of `src/lib.rs`, with its filesystem
effects threaded through the `World`: validate the required fields,
resolve the project directories (`ProjectDirs::from`), rotate logs, then
open the run's log file named by encoding the current instant, and
install the dispatcher. A validation failure happens before any
filesystem or logging side effect, so it leaves the world unchanged;
the outer `Option` is `none` when `rotate_logs` panics. -/
def LoggingBuilder.finish (b : LoggingBuilder) (w : World) :
    Option (World × Except Unit String) :=
  if b.app_name.isEmpty || b.qualifier.isEmpty || b.organization.isEmpty then
    some (w, Except.error ())
  else if !w.projectDirsOk then some (w, Except.error ())
  else
    match rotate_logs w with
    | none => none
    | some (w1, Except.error _) => some (w1, Except.error ())
    | some (w1, Except.ok _) =>
      if w1.openFail then some (w1, Except.error ())
      else
        let newPath := encode w.now ++ ".log"
        let w2 := { w1 with
          entries := w1.entries ++ [{ path := newPath, stem := some (some (encode w.now)) }] }
        if w2.applyFail then some (w2, Except.error ())
        else some (w2, Except.ok newPath)


/-- Concrete instant used by witnesses: 2024-02-29 23:59:59 (a leap day). -/
def t0 : NaiveDateTime := ⟨2024, 2, 29, 23, 59, 59⟩

/-- A string of the right length whose day field is out of range. -/
def badToken : String := "2024-02-30_10-00-00"

/-- A failure-free world with an existing, empty log directory, used as
the base of the concrete witness scenarios. -/
def baseWorld : World :=
  { dirExists := true, entries := [], createFail := false, readFail := false,
    delFail := fun _ => false, projectDirsOk := true, openFail := false,
    applyFail := false, now := t0 }

/-- An entry with no extractable stem (e.g. a bare directory). -/
def eStemless : DirEntry := { path := "logs/..", stem := none }

/-- An entry whose stem is not valid UTF-8. -/
def eNonUtf8 : DirEntry := { path := "logs/bad-name.log", stem := some none }

/-- A foreign file whose stem is not a timestamp token. -/
def eForeign : DirEntry := { path := "logs/notes.txt", stem := some (some "notes") }

/-- First (oldest) validly timestamped log file. -/
def eValid1 : DirEntry :=
  { path := "logs/2024-01-01_00-00-00.log", stem := some (some "2024-01-01_00-00-00") }

/-- Second validly timestamped log file. -/
def eValid2 : DirEntry :=
  { path := "logs/2024-01-02_00-00-00.log", stem := some (some "2024-01-02_00-00-00") }

/-- Third validly timestamped log file. -/
def eValid3 : DirEntry :=
  { path := "logs/2024-01-03_00-00-00.log", stem := some (some "2024-01-03_00-00-00") }

/-- Fourth validly timestamped log file. -/
def eValid4 : DirEntry :=
  { path := "logs/2024-01-04_00-00-00.log", stem := some (some "2024-01-04_00-00-00") }

/-- Fifth validly timestamped log file. -/
def eValid5 : DirEntry :=
  { path := "logs/2024-01-05_00-00-00.log", stem := some (some "2024-01-05_00-00-00") }

/-- Sixth (newest) validly timestamped log file. -/
def eValid6 : DirEntry :=
  { path := "logs/2024-01-06_00-00-00.log", stem := some (some "2024-01-06_00-00-00") }

/-- A directory holding a valid log file and a foreign file. -/
def wMix : World := { baseWorld with entries := [eValid1, eForeign] }

/-- A directory holding a valid log file and a stemless entry. -/
def wStemless : World := { baseWorld with entries := [eValid1, eStemless] }

/-- A directory holding a valid log file and a non-UTF-8-stem entry. -/
def wNonUtf8 : World := { baseWorld with entries := [eValid1, eNonUtf8] }

/-- A directory holding six validly timestamped log files. -/
def wSix : World :=
  { baseWorld with entries := [eValid1, eValid2, eValid3, eValid4, eValid5, eValid6] }

theorem toNat_digitChar : ∀ d < 10, (digitChar d).toNat = 48 + d := by decide

theorem isDigitCh_digitChar : ∀ d < 10, isDigitCh (digitChar d) = true := by decide

theorem chVal_digitChar : ∀ d < 10, chVal (digitChar d) = d := by decide

theorem digitChar_chVal (c : Char) (h : isDigitCh c = true) : digitChar (chVal c) = c := by
  simp only [isDigitCh, Bool.and_eq_true, decide_eq_true_eq] at h
  have heq : 48 + (c.toNat - 48) = c.toNat := by omega
  simp [digitChar, chVal, heq, Char.ofNat_toNat]

theorem chVal_le_of_isDigitCh (c : Char) (h : isDigitCh c = true) : chVal c ≤ 9 := by
  simp only [isDigitCh, Bool.and_eq_true, decide_eq_true_eq] at h
  simp only [chVal]
  omega

theorem readNat2_pad2 (n : Nat) (h : n < 100) :
    readNat2 (digitChar (n / 10)) (digitChar (n % 10)) = some n := by
  have h1 : n / 10 < 10 := by omega
  have h2 : n % 10 < 10 := by omega
  simp [readNat2, isDigitCh_digitChar _ h1, isDigitCh_digitChar _ h2,
    chVal_digitChar _ h1, chVal_digitChar _ h2]
  omega

theorem readNat4_pad4 (n : Nat) (h : n < 10000) :
    readNat4 (digitChar (n / 1000)) (digitChar (n / 100 % 10)) (digitChar (n / 10 % 10))
      (digitChar (n % 10)) = some n := by
  have h1 : n / 1000 < 10 := by omega
  have h2 : n / 100 % 10 < 10 := by omega
  have h3 : n / 10 % 10 < 10 := by omega
  have h4 : n % 10 < 10 := by omega
  simp [readNat4, isDigitCh_digitChar _ h1, isDigitCh_digitChar _ h2,
    isDigitCh_digitChar _ h3, isDigitCh_digitChar _ h4,
    chVal_digitChar _ h1, chVal_digitChar _ h2, chVal_digitChar _ h3, chVal_digitChar _ h4]
  omega

theorem daysInMonth_le (y m : Nat) : daysInMonth y m ≤ 31 := by
  unfold daysInMonth
  split_ifs <;> omega

theorem decode_encode_valid (t : NaiveDateTime) (h : Valid t) : decode (encode t) = some t := by
  obtain ⟨y, mo, d, hh, mi, ss⟩ := t
  obtain ⟨hy, hmo1, hmo2, hd1, hd2, hhh, hmi, hss⟩ := h
  dsimp only at hy hmo1 hmo2 hd1 hd2 hhh hmi hss
  have hdm := daysInMonth_le y mo
  simp only [decode, encode, encodeChars, pad4, pad2, List.cons_append, List.nil_append]
  simp only [decodeChars]
  rw [readNat4_pad4 y (by omega), readNat2_pad2 mo (by omega), readNat2_pad2 d (by omega),
    readNat2_pad2 hh (by omega), readNat2_pad2 mi (by omega), readNat2_pad2 ss (by omega)]
  simp
  exact ⟨hmo1, hmo2, hd1, hd2, hhh, hmi, hss⟩

example (t : NaiveDateTime) (h : decodeChars [] = some t) : False :=
  Option.noConfusion h

theorem readNat4_eq_some (a b c d : Char) (n : Nat) (h : readNat4 a b c d = some n) :
    isDigitCh a = true ∧ isDigitCh b = true ∧ isDigitCh c = true ∧ isDigitCh d = true ∧
    n = chVal a * 1000 + chVal b * 100 + chVal c * 10 + chVal d := by
  unfold readNat4 at h
  by_cases hc : (isDigitCh a && isDigitCh b && isDigitCh c && isDigitCh d) = true
  · simp only [Bool.and_eq_true] at hc
    rw [if_pos (by simp [Bool.and_eq_true, hc.1.1.1, hc.1.1.2, hc.1.2, hc.2])] at h
    exact ⟨hc.1.1.1, hc.1.1.2, hc.1.2, hc.2, (Option.some.inj h).symm⟩
  · rw [if_neg hc] at h
    exact Option.noConfusion h

theorem readNat2_eq_some (a b : Char) (n : Nat) (h : readNat2 a b = some n) :
    isDigitCh a = true ∧ isDigitCh b = true ∧ n = chVal a * 10 + chVal b := by
  unfold readNat2 at h
  by_cases hc : (isDigitCh a && isDigitCh b) = true
  · simp only [Bool.and_eq_true] at hc
    rw [if_pos (by simp [Bool.and_eq_true, hc.1, hc.2])] at h
    exact ⟨hc.1, hc.2, (Option.some.inj h).symm⟩
  · rw [if_neg hc] at h
    exact Option.noConfusion h

theorem pad2_digits (a b : Char) (ha : isDigitCh a = true) (hb : isDigitCh b = true) :
    pad2 (chVal a * 10 + chVal b) = [a, b] := by
  have h1 := chVal_le_of_isDigitCh a ha
  have h2 := chVal_le_of_isDigitCh b hb
  have e1 : (chVal a * 10 + chVal b) / 10 = chVal a := by omega
  have e2 : (chVal a * 10 + chVal b) % 10 = chVal b := by omega
  simp [pad2, e1, e2, digitChar_chVal a ha, digitChar_chVal b hb]

theorem pad4_digits (a b c d : Char) (ha : isDigitCh a = true) (hb : isDigitCh b = true)
    (hc : isDigitCh c = true) (hd : isDigitCh d = true) :
    pad4 (chVal a * 1000 + chVal b * 100 + chVal c * 10 + chVal d) = [a, b, c, d] := by
  have h1 := chVal_le_of_isDigitCh a ha
  have h2 := chVal_le_of_isDigitCh b hb
  have h3 := chVal_le_of_isDigitCh c hc
  have h4 := chVal_le_of_isDigitCh d hd
  have e1 : (chVal a * 1000 + chVal b * 100 + chVal c * 10 + chVal d) / 1000 = chVal a := by omega
  have e2 : (chVal a * 1000 + chVal b * 100 + chVal c * 10 + chVal d) / 100 % 10 = chVal b := by
    omega
  have e3 : (chVal a * 1000 + chVal b * 100 + chVal c * 10 + chVal d) / 10 % 10 = chVal c := by
    omega
  have e4 : (chVal a * 1000 + chVal b * 100 + chVal c * 10 + chVal d) % 10 = chVal d := by omega
  simp [pad4, e1, e2, e3, e4, digitChar_chVal a ha, digitChar_chVal b hb,
    digitChar_chVal c hc, digitChar_chVal d hd]

theorem decodeChars_strict (l : List Char) (t : NaiveDateTime)
    (h : decodeChars l = some t) : Valid t ∧ encodeChars t = l := by
  rcases l with _l | ⟨y1, _l | ⟨y2, _l | ⟨y3, _l | ⟨y4, _l | ⟨a1, _l | ⟨m1, _l | ⟨m2, _l | ⟨a2,
    _l | ⟨d1, _l | ⟨d2, _l | ⟨a3, _l | ⟨h1, _l | ⟨h2, _l | ⟨a4, _l | ⟨n1, _l | ⟨n2, _l | ⟨a5,
    _l | ⟨s1, _l | ⟨s2, _l | ⟨c20, rest⟩⟩⟩⟩⟩⟩⟩⟩⟩⟩⟩⟩⟩⟩⟩⟩⟩⟩⟩⟩
  all_goals try exact Option.noConfusion h
  simp only [decodeChars] at h
  by_cases e1 : a1 = '-'
  case neg => simp [e1] at h
  by_cases e2 : a2 = '-'
  case neg => simp [e2] at h
  by_cases e3 : a3 = '_'
  case neg => simp [e3] at h
  by_cases e4 : a4 = '-'
  case neg => simp [e4] at h
  by_cases e5 : a5 = '-'
  case neg => simp [e5] at h
  subst e1 e2 e3 e4 e5
  have hcond : ('-' == '-' && '-' == '-' && '_' == '_' && '-' == '-' && '-' == '-') = true := by
    decide
  rw [if_pos hcond] at h
  cases hr4 : readNat4 y1 y2 y3 y4 <;> rw [hr4] at h
  · exact Option.noConfusion h
  next y =>
  cases hrm : readNat2 m1 m2 <;> rw [hrm] at h
  · exact Option.noConfusion h
  next mo =>
  cases hrd : readNat2 d1 d2 <;> rw [hrd] at h
  · exact Option.noConfusion h
  next d =>
  cases hrh : readNat2 h1 h2 <;> rw [hrh] at h
  · exact Option.noConfusion h
  next hh =>
  cases hrn : readNat2 n1 n2 <;> rw [hrn] at h
  · exact Option.noConfusion h
  next mi =>
  cases hrs : readNat2 s1 s2 <;> rw [hrs] at h
  · exact Option.noConfusion h
  next ss =>
  dsimp only at h
  by_cases hr : 1 ≤ mo ∧ mo ≤ 12 ∧ 1 ≤ d ∧ d ≤ daysInMonth y mo ∧ hh ≤ 23 ∧ mi ≤ 59 ∧ ss ≤ 59
  case neg => rw [if_neg hr] at h; exact Option.noConfusion h
  rw [if_pos hr] at h
  obtain ⟨hy1, hy2, hy3, hy4, hy⟩ := readNat4_eq_some _ _ _ _ _ hr4
  obtain ⟨hm1, hm2, hm⟩ := readNat2_eq_some _ _ _ hrm
  obtain ⟨hd1, hd2, hd⟩ := readNat2_eq_some _ _ _ hrd
  obtain ⟨hh1, hh2, hhv⟩ := readNat2_eq_some _ _ _ hrh
  obtain ⟨hn1, hn2, hn⟩ := readNat2_eq_some _ _ _ hrn
  obtain ⟨hs1, hs2, hs⟩ := readNat2_eq_some _ _ _ hrs
  have ht : t = ⟨y, mo, d, hh, mi, ss⟩ := (Option.some.inj h).symm
  subst ht
  constructor
  · refine ⟨?_, hr.1, hr.2.1, hr.2.2.1, hr.2.2.2.1, hr.2.2.2.2.1, hr.2.2.2.2.2.1,
      hr.2.2.2.2.2.2⟩
    have b1 := chVal_le_of_isDigitCh y1 hy1
    have b2 := chVal_le_of_isDigitCh y2 hy2
    have b3 := chVal_le_of_isDigitCh y3 hy3
    have b4 := chVal_le_of_isDigitCh y4 hy4
    show y ≤ 9999
    omega
  · subst hy hm hd hhv hn hs
    simp [encodeChars, pad4_digits _ _ _ _ hy1 hy2 hy3 hy4, pad2_digits _ _ hm1 hm2,
      pad2_digits _ _ hd1 hd2, pad2_digits _ _ hh1 hh2, pad2_digits _ _ hn1 hn2,
      pad2_digits _ _ hs1 hs2]



theorem decode_strict_aux (s : String) (t : NaiveDateTime) (h : decode s = some t) :
    Valid t ∧ encode t = s := by
  obtain ⟨hv, he⟩ := decodeChars_strict s.data t h
  refine ⟨hv, ?_⟩
  cases s with
  | mk l => exact congrArg String.mk he

/-- C3: for every instant representable at second precision (a
calendar-valid datetime with a four-digit year), decoding the token
produced by encoding the instant with the fixed pattern
`%Y-%m-%d_%H-%M-%S` yields the same second-precision instant. -/
theorem decode_encode_roundtrip (t : NaiveDateTime) (h : Valid t) :
    decode (encode t) = some t :=
  decode_encode_valid t h

/-- Witness for C3 at the concrete instant 2024-02-29 23:59:59. -/
theorem decode_encode_roundtrip_witness :
    Valid t0 ∧ decode (encode t0) = some t0 :=
  ⟨by decide, decode_encode_roundtrip t0 (by decide)⟩

/-- C4: every string that deviates in any way from the fixed pattern
`YYYY-MM-DD_HH-MM-SS` — wrong length, wrong separators, non-numeric
fields, out-of-range month/day/hour/minute/second, extra characters,
i.e. any string that is not the exact encoding of a representable
instant — fails to decode; no partial or lenient parse succeeds. -/
theorem decode_rejects_nonpattern (s : String)
    (hdev : ∀ t : NaiveDateTime, Valid t → encode t ≠ s) : decode s = none := by
  cases hd : decode s with
  | none => rfl
  | some t =>
    obtain ⟨hv, he⟩ := decode_strict_aux s t hd
    exact absurd he (hdev t hv)

/-- Witness for C4 at the out-of-range token `2024-02-30_10-00-00`. -/
theorem decode_rejects_nonpattern_witness : decode badToken = none :=
  decode_rejects_nonpattern badToken (fun t hv he => by
    have h2 : decode badToken = some t := he ▸ decode_encode_valid t hv
    have h3 : decode badToken = none := by decide
    exact Option.noConfusion (h3 ▸ h2))

theorem insertLog_perm (x : String × NaiveDateTime) (l : List (String × NaiveDateTime)) :
    (insertLog x l).Perm (x :: l) := by
  induction l with
  | nil => exact List.Perm.refl _
  | cons y ys ih =>
    simp only [insertLog]
    split
    · exact List.Perm.refl _
    · exact (ih.cons y).trans (List.Perm.swap x y ys)

theorem sort_log_files_perm (l : List (String × NaiveDateTime)) :
    (sort_log_files l).Perm l := by
  induction l with
  | nil => exact List.Perm.refl _
  | cons x xs ih => exact (insertLog_perm x _).trans (ih.cons x)

theorem insertLog_pairwise (x : String × NaiveDateTime) (l : List (String × NaiveDateTime))
    (h : l.Pairwise (fun a b => b.2.key ≤ a.2.key)) :
    (insertLog x l).Pairwise (fun a b => b.2.key ≤ a.2.key) := by
  induction l with
  | nil => simp [insertLog]
  | cons y ys ih =>
    rw [List.pairwise_cons] at h
    obtain ⟨hy, hys⟩ := h
    simp only [insertLog]
    split
    next hle =>
      rw [List.pairwise_cons]
      refine ⟨?_, List.pairwise_cons.mpr ⟨hy, hys⟩⟩
      intro z hz
      rcases List.mem_cons.mp hz with rfl | hz
      · exact hle
      · exact le_trans (hy z hz) hle
    next hgt =>
      rw [List.pairwise_cons]
      refine ⟨?_, ih hys⟩
      intro z hz
      rcases List.mem_cons.mp ((insertLog_perm x ys).mem_iff.mp hz) with rfl | hz
      · omega
      · exact hy z hz

theorem sort_log_files_pairwise (l : List (String × NaiveDateTime)) :
    (sort_log_files l).Pairwise (fun a b => b.2.key ≤ a.2.key) := by
  induction l with
  | nil => simp [sort_log_files]
  | cons x xs ih => exact insertLog_pairwise x _ ih

theorem insertLog_filter_neg (p : String × NaiveDateTime → Bool) (x : String × NaiveDateTime)
    (l : List (String × NaiveDateTime)) (hx : p x = false) :
    (insertLog x l).filter p = l.filter p := by
  induction l with
  | nil => simp [insertLog, hx]
  | cons y ys ih =>
    simp only [insertLog]
    split
    · simp [List.filter_cons, hx]
    · cases hpy : p y <;> simp [List.filter_cons, hpy, ih]

theorem insertLog_filter_pos (p : String × NaiveDateTime → Bool) (x : String × NaiveDateTime)
    (l : List (String × NaiveDateTime)) (hx : p x = true)
    (hkey : ∀ z, p z = true → z.2.key = x.2.key) :
    (insertLog x l).filter p = x :: l.filter p := by
  induction l with
  | nil => simp [insertLog, hx]
  | cons y ys ih =>
    simp only [insertLog]
    split
    next hle => simp [List.filter_cons, hx]
    next hgt =>
      have hpy : p y = false := by
        cases hpy : p y
        · rfl
        · exact absurd (hkey y hpy) (by omega)
      simp [List.filter_cons, hpy, ih]

theorem sort_log_files_stable (l : List (String × NaiveDateTime)) (t : NaiveDateTime) :
    (sort_log_files l).filter (fun e => e.2 == t) = l.filter (fun e => e.2 == t) := by
  induction l with
  | nil => rfl
  | cons x xs ih =>
    show (insertLog x (sort_log_files xs)).filter _ = _
    cases hpx : (x.2 == t)
    · rw [insertLog_filter_neg _ _ _ hpx]
      simp [List.filter_cons, hpx, ih]
    · rw [insertLog_filter_pos _ _ _ hpx (fun z hz => by
        have hz2 : z.2 = t := by simpa using hz
        have hx2 : x.2 = t := by simpa using hpx
        rw [hz2, hx2])]
      simp [List.filter_cons, hpx, ih]

/-- C2: for every list of `(path, decoded instant)` records, the result
of `sort_log_files` is sorted in descending order of decoded instant
(newest first), records with equal decoded instants appear in the same
relative order as in the input (the sort is stable), and the result is a
permutation of the input. -/
theorem sort_log_files_sorted_stable (l : List (String × NaiveDateTime)) :
    (sort_log_files l).Pairwise (fun a b => b.2.key ≤ a.2.key) ∧
    (∀ t : NaiveDateTime,
      (sort_log_files l).filter (fun e => e.2 == t) = l.filter (fun e => e.2 == t)) ∧
    (sort_log_files l).Perm l :=
  ⟨sort_log_files_pairwise l, fun t => sort_log_files_stable l t, sort_log_files_perm l⟩

theorem processEntries_ok (delFail : String → Bool) (entries : List DirEntry)
    (hdel : ∀ e ∈ entries, isBadEntry e = true → delFail e.path = false) :
    processEntries delFail entries =
      (entries.filter keepEntry, Except.ok (entries.filterMap entryRecord)) := by
  induction entries with
  | nil => rfl
  | cons e rest ih =>
    have hdel' : ∀ x ∈ rest, isBadEntry x = true → delFail x.path = false :=
      fun x hx => hdel x (List.mem_cons_of_mem e hx)
    cases hstem : e.stem with
    | none =>
      simp only [processEntries, hstem, ih hdel']
      simp [List.filter_cons, List.filterMap_cons, keepEntry, entryRecord, hstem]
    | some so =>
      cases hdec : decode (so.getD emptyString) with
      | some t =>
        simp only [processEntries, hstem, hdec, ih hdel']
        simp [List.filter_cons, List.filterMap_cons, keepEntry, entryRecord, hstem, hdec,
          Except.map]
      | none =>
        have hbad : isBadEntry e = true := by
          simp [isBadEntry, entryRecord, hstem, hdec]
        have hdf : delFail e.path = false := hdel e (List.mem_cons_self e rest) hbad
        simp only [processEntries, hstem, hdec, hdf, Bool.false_eq_true, if_false, ih hdel']
        simp [List.filter_cons, List.filterMap_cons, keepEntry, entryRecord, hstem, hdec]

theorem except_map_error_iff {A B : Type} (x : Except Unit A) (f : A → B) :
    x.map f = Except.error () ↔ x = Except.error () := by
  cases x <;> simp [Except.map]

theorem processEntries_error_iff (delFail : String → Bool) (entries : List DirEntry) :
    (processEntries delFail entries).2 = Except.error () ↔
      ∃ e ∈ entries, isBadEntry e = true ∧ delFail e.path = true := by
  induction entries with
  | nil => simp [processEntries]
  | cons e rest ih =>
    cases hstem : e.stem with
    | none =>
      simp only [processEntries, hstem]
      rw [ih]
      constructor
      · rintro ⟨x, hx, hbx, hdx⟩
        exact ⟨x, List.mem_cons_of_mem e hx, hbx, hdx⟩
      · rintro ⟨x, hx, hbx, hdx⟩
        rcases List.mem_cons.mp hx with rfl | hx
        · simp [isBadEntry, hstem] at hbx
        · exact ⟨x, hx, hbx, hdx⟩
    | some so =>
      cases hdec : decode (so.getD emptyString) with
      | some t =>
        simp only [processEntries, hstem, hdec]
        rw [except_map_error_iff, ih]
        constructor
        · rintro ⟨x, hx, hbx, hdx⟩
          exact ⟨x, List.mem_cons_of_mem e hx, hbx, hdx⟩
        · rintro ⟨x, hx, hbx, hdx⟩
          rcases List.mem_cons.mp hx with rfl | hx
          · simp [isBadEntry, entryRecord, hstem, hdec] at hbx
          · exact ⟨x, hx, hbx, hdx⟩
      | none =>
        have hbad : isBadEntry e = true := by
          simp [isBadEntry, entryRecord, hstem, hdec]
        simp only [processEntries, hstem, hdec]
        cases hdf : delFail e.path with
        | true =>
          simp only [if_true]
          constructor
          · intro _
            exact ⟨e, List.mem_cons_self e rest, hbad, hdf⟩
          · intro _
            trivial
        | false =>
          simp only [Bool.false_eq_true, if_false]
          rw [ih]
          constructor
          · rintro ⟨x, hx, hbx, hdx⟩
            exact ⟨x, List.mem_cons_of_mem e hx, hbx, hdx⟩
          · rintro ⟨x, hx, hbx, hdx⟩
            rcases List.mem_cons.mp hx with rfl | hx
            · rw [hdf] at hdx
              exact Bool.noConfusion hdx
            · exact ⟨x, hx, hbx, hdx⟩

theorem get_all_logs_ok (w : World)
    (hdir : w.dirExists = true) (hread : w.readFail = false)
    (hdel : ∀ e ∈ w.entries, isBadEntry e = true → w.delFail e.path = false) :
    get_all_logs w =
      ({ w with entries := w.entries.filter keepEntry },
        Except.ok ((sort_log_files (w.entries.filterMap entryRecord)).map Prod.fst)) := by
  unfold get_all_logs
  rw [hdir]
  simp only [Bool.not_true, Bool.false_and, Bool.false_eq_true, if_false, if_true, hread,
    processEntries_ok w.delFail w.entries hdel, Except.map]
  rw [hdir]

/-- C7: a scan pass fails — `get_all_logs` returns `Except.error`, so
the caller receives the failure and no list of records at all, partial
or otherwise — exactly when directory creation fails, directory reading
fails, or deleting an unparseable entry fails; in particular decode
failures by themselves are never surfaced as errors. -/
theorem get_all_logs_error_iff (w : World) :
    (get_all_logs w).2 = Except.error () ↔
      (w.dirExists = false ∧ w.createFail = true) ∨ w.readFail = true ∨
      (w.dirExists = true ∧ ∃ e ∈ w.entries, isBadEntry e = true ∧ w.delFail e.path = true) := by
  unfold get_all_logs
  cases hde : w.dirExists with
  | false =>
    cases hcf : w.createFail with
    | true => simp [hde, hcf]
    | false =>
      cases hrf : w.readFail with
      | true => simp [hde, hcf, hrf]
      | false => simp [hde, hcf, hrf, processEntries, Except.map]
  | true =>
    cases hrf : w.readFail with
    | true => simp [hde, hrf]
    | false =>
      simp only [hde, hrf, Bool.not_true, Bool.false_and, Bool.false_eq_true, if_false,
        if_true]
      rw [except_map_error_iff]
      rw [processEntries_error_iff]
      simp

theorem entryRecord_path (x : DirEntry) (p : String) (t : NaiveDateTime)
    (h : entryRecord x = some (p, t)) : p = x.path := by
  unfold entryRecord at h
  cases hstem : x.stem with
  | none => rw [hstem] at h; exact Option.noConfusion h
  | some so =>
    rw [hstem] at h
    dsimp only at h
    obtain ⟨t2, hod, hf⟩ := Option.map_eq_some'.mp h
    simp only [Prod.mk.injEq] at hf
    exact hf.1.symm

theorem path_not_in_scanned (entries : List DirEntry) (e : DirEntry)
    (he : e ∈ entries) (hrec : entryRecord e = none)
    (hnodup : (entries.map DirEntry.path).Nodup) :
    e.path ∉ (sort_log_files (entries.filterMap entryRecord)).map Prod.fst := by
  intro hmem
  have hmem2 : e.path ∈ (entries.filterMap entryRecord).map Prod.fst :=
    (((sort_log_files_perm (entries.filterMap entryRecord)).map Prod.fst).mem_iff).mp hmem
  obtain ⟨⟨p, t⟩, hpt, hp⟩ := List.mem_map.mp hmem2
  obtain ⟨x, hx, hxr⟩ := List.mem_filterMap.mp hpt
  have hpx : p = x.path := entryRecord_path x p t hxr
  have hxe : x = e := by
    have hinj := List.inj_on_of_nodup_map hnodup
    exact hinj hx he (by rw [← hpx]; exact hp)
  rw [hxe] at hxr
  rw [hrec] at hxr
  exact Option.noConfusion hxr

/-- C5: for a directory whose entries all have stems, one successful
scan pass deletes exactly the entries whose stems fail to decode,
keeps every decodable entry in the directory, and returns the decodable
records (sorted) — no valid file is deleted before eviction. -/
theorem scan_cleanup (w : World)
    (hdir : w.dirExists = true) (hread : w.readFail = false)
    (hstem : ∀ e ∈ w.entries, e.stem.isSome = true)
    (hdel : ∀ e ∈ w.entries, isBadEntry e = true → w.delFail e.path = false) :
    get_all_logs w =
      ({ w with entries := w.entries.filter (fun e => (entryRecord e).isSome) },
        Except.ok ((sort_log_files (w.entries.filterMap entryRecord)).map Prod.fst)) := by
  rw [get_all_logs_ok w hdir hread hdel]
  have hfe : w.entries.filter keepEntry = w.entries.filter (fun e => (entryRecord e).isSome) := by
    apply List.filter_congr
    intro x hx
    obtain ⟨so, hso⟩ := Option.isSome_iff_exists.mp (hstem x hx)
    simp [keepEntry, hso]
  rw [hfe]

/-- C6: an entry from which no filename stem can be extracted is
silently skipped by the scan: the scan succeeds, the entry is still in
the directory afterwards (not deleted), and its path is not among the
returned log records. -/
theorem scan_skips_stemless (w : World) (e : DirEntry)
    (hdir : w.dirExists = true) (hread : w.readFail = false)
    (hdel : ∀ x ∈ w.entries, isBadEntry x = true → w.delFail x.path = false)
    (he : e ∈ w.entries) (hstem : e.stem = none)
    (hnodup : (w.entries.map DirEntry.path).Nodup) :
    ∃ paths, get_all_logs w = ({ w with entries := w.entries.filter keepEntry },
        Except.ok paths) ∧ e ∈ w.entries.filter keepEntry ∧ e.path ∉ paths := by
  refine ⟨_, get_all_logs_ok w hdir hread hdel, ?_, ?_⟩
  · exact List.mem_filter.mpr ⟨he, by simp [keepEntry, hstem]⟩
  · exact path_not_in_scanned w.entries e he (by simp [entryRecord, hstem]) hnodup

/-- C10: an entry whose stem exists but is not valid UTF-8 gets the
empty string substituted for its stem (`to_str().unwrap_or_default()`),
the empty string fails to decode, and the entry is therefore deleted
rather than skipped or recorded: the scan succeeds, the entry is gone
from the directory, and its path is not among the returned records. -/
theorem scan_deletes_invalid_utf8 (w : World) (e : DirEntry)
    (hdir : w.dirExists = true) (hread : w.readFail = false)
    (hdel : ∀ x ∈ w.entries, isBadEntry x = true → w.delFail x.path = false)
    (he : e ∈ w.entries) (hstem : e.stem = some none)
    (hnodup : (w.entries.map DirEntry.path).Nodup) :
    decode emptyString = none ∧
    ∃ paths, get_all_logs w = ({ w with entries := w.entries.filter keepEntry },
        Except.ok paths) ∧ e ∉ w.entries.filter keepEntry ∧ e.path ∉ paths := by
  have hde : decode emptyString = none := by decide
  refine ⟨hde, _, get_all_logs_ok w hdir hread hdel, ?_, ?_⟩
  · intro hmem
    have := (List.mem_filter.mp hmem).2
    simp [keepEntry, hstem, entryRecord, hde] at this
  · exact path_not_in_scanned w.entries e he (by simp [entryRecord, hstem, hde]) hnodup

/-- C8: `LoggingBuilder::finish` fails when any of the required fields
`app_name`, `qualifier` or `organization` is empty, and this validation
happens before any filesystem or logging side effect: the world is
returned unchanged. -/
theorem finish_requires_fields (b : LoggingBuilder) (w : World)
    (h : (b.app_name.isEmpty || b.qualifier.isEmpty || b.organization.isEmpty) = true) :
    LoggingBuilder.finish b w = some (w, Except.error ()) := by
  unfold LoggingBuilder.finish
  rw [if_pos h]

/-- Witness for C8: a freshly constructed builder has all required
fields empty, so `finish` fails without touching the world. -/
theorem finish_requires_fields_witness :
    LoggingBuilder.finish LoggingBuilder.new baseWorld = some (baseWorld, Except.error ()) :=
  finish_requires_fields LoggingBuilder.new baseWorld (by decide)

/-- C9: the `unwrap` on `logs.pop()` in `rotate_logs` never panics:
the loop body only runs when `logs.len() >= MAX_LOG_FILES ≥ 1`, so the
vector is never empty there. In the model, the panic value `none` is
never produced — by the eviction loop on any input, nor by
`rotate_logs` on any world. -/
theorem rotateLoop_no_panic :
    (∀ (delFail : String → Bool) (dir : List DirEntry) (logs : List String),
      (rotateLoop delFail dir logs).isSome = true) ∧
    (∀ w : World, (rotate_logs w).isSome = true) := by
  have main : ∀ (n : Nat) (delFail : String → Bool) (dir : List DirEntry)
      (logs : List String), logs.length ≤ n → (rotateLoop delFail dir logs).isSome = true := by
    intro n
    induction n with
    | zero =>
      intro delFail dir logs hn
      rw [rotateLoop]
      rw [dif_neg (by simp only [MAX_LOG_FILES]; omega)]
      rfl
    | succ n ih =>
      intro delFail dir logs hn
      rw [rotateLoop]
      by_cases hge : MAX_LOG_FILES ≤ logs.length
      · rw [dif_pos hge]
        have hne : logs ≠ [] := by
          intro hnil
          rw [hnil] at hge
          simp [MAX_LOG_FILES] at hge
        rw [List.getLast?_eq_getLast logs hne]
        dsimp only
        by_cases hdf : delFail (logs.getLast hne) = true
        · rw [if_pos hdf]
          rfl
        · rw [if_neg hdf]
          refine ih delFail _ logs.dropLast ?_
          simp only [List.length_dropLast]
          omega
      · rw [dif_neg hge]
        rfl
  refine ⟨fun delFail dir logs => main logs.length delFail dir logs le_rfl, ?_⟩
  intro w
  unfold rotate_logs
  cases hg : get_all_logs w with
  | mk w1 r =>
    cases r with
    | error e => rfl
    | ok logs =>
      cases hrl : rotateLoop w1.delFail w1.entries logs with
      | none =>
        have hs := main logs.length w1.delFail w1.entries logs le_rfl
        rw [hrl] at hs
        simp at hs
      | some pr =>
        cases pr with
        | mk d r2 =>
          dsimp only
          rw [hrl]
          rfl

theorem rotateLoop_noDelFail (delFail : String → Bool) (dir : List DirEntry)
    (logs : List String) (hdf : ∀ p ∈ logs, delFail p = false) :
    rotateLoop delFail dir logs =
      some (dir.filter (fun e =>
        decide (e.path ∉ logs.drop (min logs.length (MAX_LOG_FILES - 1)))), Except.ok ()) := by
  have main : ∀ (n : Nat) (dir : List DirEntry) (logs : List String), logs.length ≤ n →
      (∀ p ∈ logs, delFail p = false) →
      rotateLoop delFail dir logs =
        some (dir.filter (fun e =>
          decide (e.path ∉ logs.drop (min logs.length (MAX_LOG_FILES - 1)))), Except.ok ()) := by
    intro n
    induction n with
    | zero =>
      intro dir logs hn _
      have hnil : logs = [] := List.length_eq_zero.mp (Nat.le_zero.mp hn)
      subst hnil
      rw [rotateLoop, dif_neg (by simp [MAX_LOG_FILES])]
      rw [List.filter_eq_self.mpr (fun a _ => by simp)]
    | succ n ih =>
      intro dir logs hn hdf
      by_cases hge : MAX_LOG_FILES ≤ logs.length
      · rw [rotateLoop, dif_pos hge]
        have hne : logs ≠ [] := by
          intro hnil
          rw [hnil] at hge
          simp [MAX_LOG_FILES] at hge
        rw [List.getLast?_eq_getLast logs hne]
        dsimp only
        have hdfp : delFail (logs.getLast hne) = false := hdf _ (List.getLast_mem hne)
        rw [if_neg (by rw [hdfp]; exact Bool.false_ne_true)]
        rw [ih _ logs.dropLast (by simp only [List.length_dropLast]; omega)
          (fun q hq => hdf q ((List.dropLast_sublist logs).subset hq))]
        have h5 : (5 : Nat) ≤ logs.length := hge
        have h1 : min logs.dropLast.length (MAX_LOG_FILES - 1) = MAX_LOG_FILES - 1 := by
          simp only [List.length_dropLast, MAX_LOG_FILES]
          omega
        have h2 : min logs.length (MAX_LOG_FILES - 1) = MAX_LOG_FILES - 1 := by
          simp only [MAX_LOG_FILES]
          omega
        have hsplit : logs.drop (MAX_LOG_FILES - 1) =
            logs.dropLast.drop (MAX_LOG_FILES - 1) ++ [logs.getLast hne] := by
          conv_lhs => rw [← List.dropLast_append_getLast hne]
          rw [List.drop_append_of_le_length (by simp only [List.length_dropLast]; omega)]
        rw [List.filter_filter]
        congr 2
        apply List.filter_congr
        intro x _
        rw [h1, h2, hsplit]
        by_cases hxa : x.path ∈ logs.dropLast.drop (MAX_LOG_FILES - 1) <;>
          by_cases hxp : x.path = logs.getLast hne <;>
          simp [hxa, hxp, List.mem_append]
      · rw [rotateLoop, dif_neg hge]
        have hlt : logs.length < MAX_LOG_FILES := Nat.lt_of_not_le hge
        have hmin : min logs.length (MAX_LOG_FILES - 1) = logs.length := by
          simp only [MAX_LOG_FILES] at *
          omega
        rw [hmin, List.drop_length]
        rw [List.filter_eq_self.mpr (fun a _ => by simp)]
  exact main logs.length dir logs le_rfl hdf

theorem map_filter_comm {α β : Type} (f : α → β) (p : β → Bool) (l : List α) :
    (l.filter (fun a => p (f a))).map f = (l.map f).filter p := by
  induction l with
  | nil => rfl
  | cons a as ih => cases hp : p (f a) <;> simp [List.filter_cons, hp, ih]

theorem length_filter_mem (paths s : List String) (hp : paths.Nodup) (hs : s.Nodup)
    (hsub : ∀ x ∈ s, x ∈ paths) :
    (paths.filter (fun x => decide (x ∈ s))).length = s.length := by
  have hperm : (paths.filter (fun x => decide (x ∈ s))).Perm s := by
    apply List.perm_of_nodup_nodup_toFinset_eq (hp.filter _) hs
    ext x
    simp only [List.mem_toFinset, List.mem_filter, decide_eq_true_eq]
    exact ⟨fun h => h.2, fun h => ⟨hsub x h, h⟩⟩
  exact hperm.length_eq

theorem map_fst_filterMap_entryRecord (entries : List DirEntry)
    (hval : ∀ e ∈ entries, (entryRecord e).isSome = true) :
    (entries.filterMap entryRecord).map Prod.fst = entries.map DirEntry.path := by
  induction entries with
  | nil => rfl
  | cons e rest ih =>
    obtain ⟨r, hr⟩ := Option.isSome_iff_exists.mp (hval e (List.mem_cons_self e rest))
    obtain ⟨p, t⟩ := r
    have hp : p = e.path := entryRecord_path e p t hr
    simp [List.filterMap_cons, hr, hp,
      ih (fun x hx => hval x (List.mem_cons_of_mem _ hx))]

theorem filter_keep_of_valid (entries : List DirEntry)
    (hval : ∀ e ∈ entries, (entryRecord e).isSome = true) :
    entries.filter keepEntry = entries :=
  List.filter_eq_self.mpr (fun e he => by simp [keepEntry, hval e he])

/-- C1: for a directory containing `M` validly timestamped log files
(with distinct paths) and retention limit `MAX_LOG_FILES = 5`, one run
of `rotate_logs` succeeds, keeps exactly the `min(M, 4)` newest files
(those whose paths are among the first `MAX_LOG_FILES - 1` entries of
the descending-sorted list), hence deletes exactly
`max(0, M - MAX_LOG_FILES + 1) = M + 1 - 5` of the oldest files
(truncated subtraction), and the retained count is always strictly
less than `MAX_LOG_FILES`. -/
theorem rotate_logs_eviction (w : World)
    (hdir : w.dirExists = true) (hread : w.readFail = false)
    (hdel : ∀ p, w.delFail p = false)
    (hval : ∀ e ∈ w.entries, (entryRecord e).isSome = true)
    (hnodup : (w.entries.map DirEntry.path).Nodup) :
    ∃ w', rotate_logs w = some (w', Except.ok ()) ∧
      w'.entries = w.entries.filter (fun e =>
        decide (e.path ∈ ((sort_log_files (w.entries.filterMap entryRecord)).map Prod.fst).take
          (MAX_LOG_FILES - 1))) ∧
      w'.entries.length = min w.entries.length (MAX_LOG_FILES - 1) ∧
      w.entries.length - w'.entries.length = w.entries.length + 1 - MAX_LOG_FILES ∧
      w'.entries.length < MAX_LOG_FILES := by
  have hdel2 : ∀ e ∈ w.entries, isBadEntry e = true → w.delFail e.path = false :=
    fun e _ _ => hdel e.path
  have hmapeq := map_fst_filterMap_entryRecord w.entries hval
  have hperm : ((sort_log_files (w.entries.filterMap entryRecord)).map Prod.fst).Perm
      (w.entries.map DirEntry.path) := by
    rw [← hmapeq]
    exact (sort_log_files_perm (w.entries.filterMap entryRecord)).map Prod.fst
  have hlen : ((sort_log_files (w.entries.filterMap entryRecord)).map Prod.fst).length
      = w.entries.length := by
    rw [hperm.length_eq, List.length_map]
  have hnodupLogs : ((sort_log_files (w.entries.filterMap entryRecord)).map Prod.fst).Nodup :=
    hperm.nodup_iff.mpr hnodup
  unfold rotate_logs
  rw [get_all_logs_ok w hdir hread hdel2]
  dsimp only
  rw [filter_keep_of_valid w.entries hval]
  rw [rotateLoop_noDelFail w.delFail w.entries _ (fun p _ => hdel p)]
  have hfilter_eq : w.entries.filter (fun e =>
        decide (e.path ∉ ((sort_log_files (w.entries.filterMap entryRecord)).map Prod.fst).drop
          (min ((sort_log_files (w.entries.filterMap entryRecord)).map Prod.fst).length
            (MAX_LOG_FILES - 1)))) =
      w.entries.filter (fun e =>
        decide (e.path ∈ ((sort_log_files (w.entries.filterMap entryRecord)).map Prod.fst).take
          (MAX_LOG_FILES - 1))) := by
    apply List.filter_congr
    intro x hx
    have hpx : x.path ∈ (sort_log_files (w.entries.filterMap entryRecord)).map Prod.fst :=
      hperm.mem_iff.mpr (List.mem_map_of_mem DirEntry.path hx)
    by_cases hbig : MAX_LOG_FILES ≤ ((sort_log_files (w.entries.filterMap entryRecord)).map
        Prod.fst).length
    · have hmin : min ((sort_log_files (w.entries.filterMap entryRecord)).map Prod.fst).length
          (MAX_LOG_FILES - 1) = MAX_LOG_FILES - 1 := by
        simp only [MAX_LOG_FILES] at *
        omega
      rw [hmin]
      have hnd : (((sort_log_files (w.entries.filterMap entryRecord)).map Prod.fst).take
          (MAX_LOG_FILES - 1) ++ ((sort_log_files (w.entries.filterMap entryRecord)).map
            Prod.fst).drop (MAX_LOG_FILES - 1)).Nodup := by
        rw [List.take_append_drop]
        exact hnodupLogs
      obtain ⟨-, -, hdisj⟩ := List.nodup_append.mp hnd
      have hsplitmem : x.path ∈ ((sort_log_files (w.entries.filterMap entryRecord)).map
          Prod.fst).take (MAX_LOG_FILES - 1) ∨ x.path ∈ ((sort_log_files
          (w.entries.filterMap entryRecord)).map Prod.fst).drop (MAX_LOG_FILES - 1) := by
        rw [← List.mem_append, List.take_append_drop]
        exact hpx
      by_cases hxd : x.path ∈ ((sort_log_files (w.entries.filterMap entryRecord)).map
          Prod.fst).drop (MAX_LOG_FILES - 1)
      · have hxt : x.path ∉ ((sort_log_files (w.entries.filterMap entryRecord)).map
            Prod.fst).take (MAX_LOG_FILES - 1) := fun hmem => hdisj hmem hxd
        simp [hxd, hxt]
      · have hxt : x.path ∈ ((sort_log_files (w.entries.filterMap entryRecord)).map
            Prod.fst).take (MAX_LOG_FILES - 1) := hsplitmem.resolve_right hxd
        simp [hxd, hxt]
    · have hmin : min ((sort_log_files (w.entries.filterMap entryRecord)).map Prod.fst).length
          (MAX_LOG_FILES - 1) = ((sort_log_files (w.entries.filterMap entryRecord)).map
            Prod.fst).length := by
        simp only [MAX_LOG_FILES] at *
        omega
      rw [hmin, List.drop_length]
      have htake : ((sort_log_files (w.entries.filterMap entryRecord)).map Prod.fst).take
          (MAX_LOG_FILES - 1) = (sort_log_files (w.entries.filterMap entryRecord)).map
            Prod.fst := List.take_of_length_le (by simp only [MAX_LOG_FILES] at *; omega)
      rw [htake]
      simp [hpx]
  have hlen_eq : (w.entries.filter (fun e =>
        decide (e.path ∈ ((sort_log_files (w.entries.filterMap entryRecord)).map Prod.fst).take
          (MAX_LOG_FILES - 1)))).length = min w.entries.length (MAX_LOG_FILES - 1) := by
    have h3 := map_filter_comm DirEntry.path
      (fun x => decide (x ∈ ((sort_log_files (w.entries.filterMap entryRecord)).map
        Prod.fst).take (MAX_LOG_FILES - 1))) w.entries
    have h4 := congrArg List.length h3
    rw [List.length_map] at h4
    rw [h4]
    rw [length_filter_mem _ _ hnodup
      (hnodupLogs.sublist (List.take_sublist _ _))
      (fun x hxm => hperm.subset (List.take_subset _ _ hxm))]
    rw [List.length_take, hlen]
    exact Nat.min_comm _ _
  refine ⟨_, rfl, ?_, ?_, ?_, ?_⟩
  · exact hfilter_eq
  · rw [hfilter_eq]
    exact hlen_eq
  · rw [hfilter_eq, hlen_eq]
    simp only [MAX_LOG_FILES]
    omega
  · rw [hfilter_eq, hlen_eq]
    simp only [MAX_LOG_FILES]
    omega

/-- Witness for C1: a directory of six validly timestamped files is
evicted down to the four newest. -/
theorem rotate_logs_eviction_witness :
    ∃ w', rotate_logs wSix = some (w', Except.ok ()) ∧
      w'.entries = wSix.entries.filter (fun e =>
        decide (e.path ∈ ((sort_log_files (wSix.entries.filterMap entryRecord)).map
          Prod.fst).take (MAX_LOG_FILES - 1))) ∧
      w'.entries.length = min wSix.entries.length (MAX_LOG_FILES - 1) ∧
      wSix.entries.length - w'.entries.length = wSix.entries.length + 1 - MAX_LOG_FILES ∧
      w'.entries.length < MAX_LOG_FILES :=
  rotate_logs_eviction wSix rfl rfl (fun p => rfl) (by decide) (by decide)


/-- Witness for C5: scanning a directory holding one valid log file and
one foreign file keeps the valid one and returns exactly its record. -/
theorem scan_cleanup_witness :
    get_all_logs wMix =
      ({ wMix with entries := wMix.entries.filter (fun e => (entryRecord e).isSome) },
        Except.ok ((sort_log_files (wMix.entries.filterMap entryRecord)).map Prod.fst)) :=
  scan_cleanup wMix rfl rfl (by decide) (by decide)

/-- Witness for C6: a bare-directory entry survives the scan of a
directory also holding one valid log file, and is not recorded. -/
theorem scan_skips_stemless_witness :
    ∃ paths, get_all_logs wStemless =
        ({ wStemless with entries := wStemless.entries.filter keepEntry }, Except.ok paths) ∧
      eStemless ∈ wStemless.entries.filter keepEntry ∧ eStemless.path ∉ paths :=
  scan_skips_stemless wStemless eStemless rfl rfl (by decide) (by decide) rfl (by decide)

/-- Witness for C10: an entry with a non-UTF-8 stem is deleted by the
scan of a directory also holding one valid log file. -/
theorem scan_deletes_invalid_utf8_witness :
    decode emptyString = none ∧
    ∃ paths, get_all_logs wNonUtf8 =
        ({ wNonUtf8 with entries := wNonUtf8.entries.filter keepEntry }, Except.ok paths) ∧
      eNonUtf8 ∉ wNonUtf8.entries.filter keepEntry ∧ eNonUtf8.path ∉ paths :=
  scan_deletes_invalid_utf8 wNonUtf8 eNonUtf8 rfl rfl (by decide) (by decide) rfl (by decide)

end Logging
